import Mathlib

/-!
# libpy `stream.h`: the buffered stream adapter over a Python file-like object

A shallow embedding of `py::basic_streambuf` (include/libpy/stream.h): the write
buffer `m_write_buffer`, the write offset `m_write_ix`, and the two virtual
members `overflow` and `sync`, and of the constructors and the destructor of
`py::basic_ostream`, followed by theorems about them.

Conventions of the embedding.

* `std::array<CharT, 8192>` is a list whose length is the array size; the
  members are written for any array size and `write_buffer_size = 8192` is the
  size the header uses.
* `m_write_buffer[i] = ch` is `std::array::operator[]`, which is unchecked: a
  store with `i` not below the size is outside the array and has no defined
  behaviour.  The embedding reports it as the outcome `out_of_bounds`.
* `throw exception()` is the outcome `thrown`.
* `m_write_ix` is a `std::size_t`; it is only ever incremented right after an
  in-bounds store, so it never exceeds the array size and cannot wrap.
-/

namespace py

/-- The members of the `Traits` template parameter (`std::char_traits<CharT>` by
default) that the header uses: the end-of-stream value `Traits::eof()` and the
conversion from `int_type` to `CharT` that the store `m_write_buffer[i] = ch`
performs. -/
structure Traits (CharT : Type) (int_type : Type) where
  eof : int_type
  to_char_type : int_type → CharT

/-- The traits of `py::ostream = basic_ostream<char>`: `int_type` is `int`,
`eof()` is `-1`, and a `char` is represented by its byte value. -/
def char_traits : Traits Nat Int where
  eof := -1
  to_char_type := fun ch => (ch % 256).toNat

/-- Modelled from the spec: the Python file-like object held in `m_file_ob`
(its type and the ownership wrapper `scoped_ref` are declared outside this
header).  Only its "write" method is used.  `written` records the views that
were passed to "write", oldest first; `write_ok calls view` tells whether the
call of "write" on `view`, made after the earlier calls `calls`, succeeds. -/
structure PyObject (CharT : Type) where
  written : List (List CharT)
  write_ok : List (List CharT) → List CharT → Bool

/-- Modelled from the spec: `call_method(ob, "write", view)` of
libpy/call_function.h, which is not part of this header.  It makes exactly one
call across the boundary, with the view as its sole argument, and its result
is either a success (a non-null result, `true`) or a failure (`false`). -/
def call_method {CharT : Type} (ob : PyObject CharT) (view : List CharT) :
    Bool × PyObject CharT :=
  (ob.write_ok ob.written view, { ob with written := ob.written ++ [view] })

/-- The data members of `py::basic_streambuf<CharT, Traits>`. -/
structure basic_streambuf (CharT : Type) where
  m_file_ob : PyObject CharT
  m_write_buffer : List CharT
  m_write_ix : Nat

/-- The array size in `std::array<CharT, 8192> m_write_buffer`. -/
def write_buffer_size : Nat := 8192

/-- The constructors `basic_streambuf(file)`: `m_file_ob` is initialised from
`file`, `m_write_ix` by its default member initialiser `0`, and the array is
default-initialised, so it holds whatever `memory` was there before; the
length of `memory` is the array size. -/
def basic_streambuf.construct {CharT : Type} (file : PyObject CharT) (memory : List CharT) :
    basic_streambuf CharT :=
  { m_file_ob := file, m_write_buffer := memory, m_write_ix := 0 }

/-- The ways a call of a member function can end: a normal return with a
value, `throw exception()`, or a store outside `m_write_buffer`. -/
inductive Outcome (α : Type) (σ : Type) where
  | returned (value : α) (state : σ)
  | thrown (state : σ)
  | out_of_bounds (index : Nat)

/-- The member `sync()`: the returned `int` and the object afterwards.
`std::string_view(m_write_buffer.data(), m_write_ix)` is the first
`m_write_ix` elements of the array, the offset being at most the array size
in every state that a defined execution produces.  The function has no
`throw`; a failed call is reported by the returned -1. -/
def sync {CharT : Type} (s : basic_streambuf CharT) : Int × basic_streambuf CharT :=
  if s.m_write_ix ≠ 0 then
    let view := s.m_write_buffer.take s.m_write_ix
    let result := call_method s.m_file_ob view
    if !result.1 then
      (-1, { s with m_file_ob := result.2 })
    else
      (0, { s with m_file_ob := result.2, m_write_ix := 0 })
  else
    (0, { s with m_write_ix := 0 })

/-- The member `overflow(int_type ch)`. -/
def overflow {CharT int_type : Type} [DecidableEq int_type] (T : Traits CharT int_type)
    (s : basic_streambuf CharT) (ch : int_type) : Outcome int_type (basic_streambuf CharT) :=
  if ch = T.eof then
    Outcome.returned ch s
  else if s.m_write_ix < s.m_write_buffer.length then
    let s1 : basic_streambuf CharT :=
      { s with m_write_buffer := s.m_write_buffer.set s.m_write_ix (T.to_char_type ch),
               m_write_ix := s.m_write_ix + 1 }
    if s1.m_write_ix = s1.m_write_buffer.length then
      let r := sync s1
      if r.1 ≠ 0 then Outcome.thrown r.2 else Outcome.returned ch r.2
    else
      Outcome.returned ch s1
  else
    Outcome.out_of_bounds s.m_write_ix

/-- A request made by a user of the stream contract: append one character
(which reaches `overflow`) or flush explicitly (which reaches `sync`). -/
inductive Op (int_type : Type) where
  | append (ch : int_type)
  | flush

/-- Carry out a sequence of requests in order.  An exception leaving
`overflow` ends the sequence at the state in which it was thrown, as does a
store outside the array; the status returned by an explicit flush is left to
the caller and does not stop the sequence. -/
def run {CharT int_type : Type} [DecidableEq int_type] (T : Traits CharT int_type) :
    basic_streambuf CharT → List (Op int_type) → Outcome Unit (basic_streambuf CharT)
  | s, [] => Outcome.returned () s
  | s, Op.append ch :: ops =>
    match overflow T s ch with
    | Outcome.returned _ s1 => run T s1 ops
    | Outcome.thrown s1 => Outcome.thrown s1
    | Outcome.out_of_bounds i => Outcome.out_of_bounds i
  | s, Op.flush :: ops => run T (sync s).2 ops

/-- A sink that accepts every submission. -/
def accept_all {CharT : Type} (written : List (List CharT)) : PyObject CharT :=
  { written := written, write_ok := fun _ _ => true }

/-- A sink that fails every submission. -/
def fail_all {CharT : Type} (written : List (List CharT)) : PyObject CharT :=
  { written := written, write_ok := fun _ _ => false }

/-- The characters that a sequence of `overflow` arguments asks to store: every
argument other than `Traits::eof()`, after the conversion to `CharT` that the
store performs. -/
def stored {CharT int_type : Type} [DecidableEq int_type] (T : Traits CharT int_type)
    (input : List int_type) : List CharT :=
  (input.filter (fun ch => ch ≠ T.eof)).map T.to_char_type

/-- The arguments of the appends in a sequence of requests, in order. -/
def appends {int_type : Type} : List (Op int_type) → List int_type
  | [] => []
  | Op.append ch :: ops => ch :: appends ops
  | Op.flush :: ops => appends ops

/-- The chunks of `cap` consecutive elements of `chars`: for `k` below `q`,
the `k`-th one holds the elements at positions `k * cap` up to, and not
including, `(k + 1) * cap`. -/
def chunks {α : Type} (cap : Nat) (chars : List α) (q : Nat) : List (List α) :=
  (List.range q).map (fun k => (chars.drop (k * cap)).take cap)

/-- The relation between an adapter over an accepting sink, whose array has
`cap` elements, and the characters `chars` stored into it since the file
object had received `base`: the file object has received, after `base`, the
full chunks of `chars`, and the rest of `chars` is buffered. -/
def chunked {CharT : Type} (base : List (List CharT)) (cap : Nat) (chars : List CharT)
    (s : basic_streambuf CharT) : Prop :=
  ∃ q r : Nat, chars.length = q * cap + r ∧ r < cap ∧
    s.m_write_buffer.length = cap ∧ s.m_write_ix = r ∧
    s.m_file_ob = accept_all (base ++ chunks cap chars q) ∧
    s.m_write_buffer.take r = chars.drop (q * cap)

/-- The relation between an adapter over an accepting sink, whose array has
`cap` elements, and the characters `chars` stored into it since the file
object had received `base`, when explicit flushes may have occurred: the
chunks received after `base`, followed by what is buffered, are `chars`. -/
def delivered {CharT : Type} (base : List (List CharT)) (cap : Nat) (chars : List CharT)
    (s : basic_streambuf CharT) : Prop :=
  s.m_write_buffer.length = cap ∧ s.m_write_ix < cap ∧
    ∃ sub : List (List CharT), s.m_file_ob = accept_all (base ++ sub) ∧
      sub.flatten ++ s.m_write_buffer.take s.m_write_ix = chars

/-- What a call of `overflow` reports to its caller under the stream contract
of `std::basic_streambuf`, whose two failure channels the spec names as the
end-of-stream sentinel and the abrupt operation failure: a failure is a
thrown exception or the returned value `Traits::eof()` (the stream's
failure-return channel); every other returned value reports success, and a
store outside the array reports nothing. -/
def reports_failure {CharT int_type σ : Type} [DecidableEq int_type]
    (T : Traits CharT int_type) : Outcome int_type σ → Bool
  | Outcome.returned value _ => decide (value = T.eof)
  | Outcome.thrown _ => true
  | Outcome.out_of_bounds _ => false

/-- Modelled from the spec: the ownership wrapper `scoped_ref<PyObject>` of
libpy/scoped_ref.h, which is not part of this header, seen through the
reference count of the Python object it refers to.  A `scoped_ref` made from
a raw pointer, or by a move, takes over a reference that exists already: the
count is as it was. -/
def scoped_ref.adopt (refcnt : Int) : Int := refcnt

/-- Modelled from the spec: copying a `scoped_ref` shares the object and
increments its reference count. -/
def scoped_ref.copy (refcnt : Int) : Int := refcnt + 1

/-- Modelled from the spec: destroying a `scoped_ref` releases its reference,
which decrements the reference count. -/
def scoped_ref.release (refcnt : Int) : Int := refcnt - 1

/-- The CPython operation `Py_INCREF(file)`, on the reference count. -/
def Py_INCREF (refcnt : Int) : Int := refcnt + 1

/-- The class `py::basic_ostream<CharT, Traits>`: its data member `m_buf`,
kept together with `ob_refcnt`, the reference count of the Python object that
`m_buf.m_file_ob` refers to. -/
structure basic_ostream (CharT : Type) where
  m_buf : basic_streambuf CharT
  ob_refcnt : Int

/-- The constructor `basic_ostream(scoped_ref<PyObject>&& file)`: `m_buf` is
built from the moved handle, so the object, whose count is `refcnt`, gains no
reference. -/
def basic_ostream.from_moved {CharT : Type} (file : PyObject CharT) (refcnt : Int)
    (memory : List CharT) : basic_ostream CharT :=
  { m_buf := basic_streambuf.construct file memory, ob_refcnt := scoped_ref.adopt refcnt }

/-- The constructor `basic_ostream(const scoped_ref<PyObject>& file)`: `m_buf`
is built from a copy of the handle. -/
def basic_ostream.from_shared {CharT : Type} (file : PyObject CharT) (refcnt : Int)
    (memory : List CharT) : basic_ostream CharT :=
  { m_buf := basic_streambuf.construct file memory, ob_refcnt := scoped_ref.copy refcnt }

/-- The constructor `basic_ostream(PyObject* file)`: it delegates to the
constructor from the temporary `scoped_ref(file)` and then does
`Py_INCREF(file)`. -/
def basic_ostream.from_pointer {CharT : Type} (file : PyObject CharT) (refcnt : Int)
    (memory : List CharT) : basic_ostream CharT :=
  let os := basic_ostream.from_moved file (scoped_ref.adopt refcnt) memory
  { os with ob_refcnt := Py_INCREF os.ob_refcnt }

/-- The destructor `~basic_ostream()`: the body calls `m_buf.pubsync()`, that
is `sync()`, and does not use its result; then the member `m_buf` is
destroyed, and with it the handle `m_file_ob`.  What is left is the Python
object and its reference count. -/
def basic_ostream.destroy {CharT : Type} (os : basic_ostream CharT) :
    Outcome Unit (PyObject CharT × Int) :=
  let flushed := sync os.m_buf
  Outcome.returned () (flushed.2.m_file_ob, scoped_ref.release os.ob_refcnt)

end py

open py

/-! ## Auxiliary facts about lists -/

theorem take_succ_set {α : Type} (a : α) :
    ∀ (l : List α) (i : Nat), i < l.length → (l.set i a).take (i + 1) = l.take i ++ [a]
  | [], i, h => by simp at h
  | x :: l, 0, _ => by simp
  | x :: l, i + 1, h => by
    have h1 : i < l.length := by simpa using h
    simp [take_succ_set a l i h1]

theorem take_length_set {α : Type} (a : α) (l : List α) (i : Nat)
    (h : i + 1 = l.length) : (l.set i a).take (i + 1) = l.take i ++ [a] :=
  take_succ_set a l i (by omega)

/-! ## The outcomes of `sync` and `overflow`, case by case -/

section cases

variable {CharT int_type : Type} [DecidableEq int_type]

/-- With nothing buffered `sync` returns 0 and calls nothing. -/
theorem sync_empty (s : basic_streambuf CharT) (h : s.m_write_ix = 0) :
    sync s = (0, s) := by
  cases s
  simp only at h
  subst h
  simp [sync]

/-- With something buffered and a failing call, `sync` returns -1 and keeps
the buffer and the offset. -/
theorem sync_failed (s : basic_streambuf CharT) (h : s.m_write_ix ≠ 0)
    (hw : s.m_file_ob.write_ok s.m_file_ob.written (s.m_write_buffer.take s.m_write_ix) = false) :
    sync s = (-1, { s with m_file_ob :=
      { s.m_file_ob with
        written := s.m_file_ob.written ++ [s.m_write_buffer.take s.m_write_ix] } }) := by
  simp [sync, call_method, h, hw]

/-- With something buffered and a successful call, `sync` returns 0 and resets
the offset. -/
theorem sync_succeeded (s : basic_streambuf CharT) (h : s.m_write_ix ≠ 0)
    (hw : s.m_file_ob.write_ok s.m_file_ob.written (s.m_write_buffer.take s.m_write_ix) = true) :
    sync s = (0, { s with
      m_file_ob := { s.m_file_ob with
        written := s.m_file_ob.written ++ [s.m_write_buffer.take s.m_write_ix] },
      m_write_ix := 0 }) := by
  simp [sync, call_method, h, hw]

theorem overflow_eof (T : Traits CharT int_type) (s : basic_streambuf CharT) :
    overflow T s T.eof = Outcome.returned T.eof s := by
  simp [overflow]

/-- An append that leaves room in the array stores the character and returns. -/
theorem overflow_room (T : Traits CharT int_type) (s : basic_streambuf CharT) (ch : int_type)
    (hch : ch ≠ T.eof) (h : s.m_write_ix + 1 < s.m_write_buffer.length) :
    overflow T s ch = Outcome.returned ch
      { s with m_write_buffer := s.m_write_buffer.set s.m_write_ix (T.to_char_type ch),
               m_write_ix := s.m_write_ix + 1 } := by
  have h1 : s.m_write_ix < s.m_write_buffer.length := by omega
  have h2 : s.m_write_ix + 1 ≠ s.m_write_buffer.length := by omega
  simp [overflow, hch, h1, h2]

/-- An append that fills the array stores the character and calls `sync`; it
throws when `sync` returns non-zero. -/
theorem overflow_fill (T : Traits CharT int_type) (s : basic_streambuf CharT) (ch : int_type)
    (hch : ch ≠ T.eof) (h : s.m_write_ix + 1 = s.m_write_buffer.length) :
    overflow T s ch =
      if (sync { s with m_write_buffer := s.m_write_buffer.set s.m_write_ix (T.to_char_type ch),
                        m_write_ix := s.m_write_ix + 1 }).1 ≠ 0
      then Outcome.thrown
        (sync { s with m_write_buffer := s.m_write_buffer.set s.m_write_ix (T.to_char_type ch),
                       m_write_ix := s.m_write_ix + 1 }).2
      else Outcome.returned ch
        (sync { s with m_write_buffer := s.m_write_buffer.set s.m_write_ix (T.to_char_type ch),
                       m_write_ix := s.m_write_ix + 1 }).2 := by
  have h1 : s.m_write_ix < s.m_write_buffer.length := by omega
  simp [overflow, hch, h1, h]

/-- An append on a full array stores outside it. -/
theorem overflow_full (T : Traits CharT int_type) (s : basic_streambuf CharT) (ch : int_type)
    (hch : ch ≠ T.eof) (h : s.m_write_buffer.length ≤ s.m_write_ix) :
    overflow T s ch = Outcome.out_of_bounds s.m_write_ix := by
  have h1 : ¬ s.m_write_ix < s.m_write_buffer.length := by omega
  simp [overflow, hch, h1]

theorem run_append (T : Traits CharT int_type) :
    ∀ (ops1 ops2 : List (Op int_type)) (s : basic_streambuf CharT),
      run T s (ops1 ++ ops2) =
        match run T s ops1 with
        | Outcome.returned _ s1 => run T s1 ops2
        | Outcome.thrown s1 => Outcome.thrown s1
        | Outcome.out_of_bounds i => Outcome.out_of_bounds i
  | [], ops2, s => by simp [run]
  | Op.append ch :: ops1, ops2, s => by
    simp only [List.cons_append, run]
    cases overflow T s ch with
    | returned v s1 => simpa using run_append T ops1 ops2 s1
    | thrown s1 => rfl
    | out_of_bounds i => rfl
  | Op.flush :: ops1, ops2, s => by
    simp only [List.cons_append, run]
    exact run_append T ops1 ops2 _

end cases

/-! ## Appending while the array has room: no call of `sync` -/

section room

variable {CharT int_type : Type} [DecidableEq int_type]

theorem stored_nil (T : Traits CharT int_type) : stored T [] = [] := rfl

theorem stored_cons_eof (T : Traits CharT int_type) (input : List int_type) :
    stored T (T.eof :: input) = stored T input := by
  simp [stored]

theorem stored_cons (T : Traits CharT int_type) (ch : int_type) (input : List int_type)
    (hch : ch ≠ T.eof) : stored T (ch :: input) = T.to_char_type ch :: stored T input := by
  simp [stored, hch]

theorem stored_of_no_eof (T : Traits CharT int_type) :
    ∀ (input : List int_type), (∀ ch ∈ input, ch ≠ T.eof) →
      stored T input = input.map T.to_char_type
  | [], _ => rfl
  | ch :: input, h => by
    have h1 : ch ≠ T.eof := h ch (List.mem_cons_self _ _)
    have h2 : ∀ c ∈ input, c ≠ T.eof := fun c hc => h c (List.mem_cons_of_mem _ hc)
    rw [stored_cons T ch input h1, stored_of_no_eof T input h2, List.map_cons]

theorem stored_length_le (T : Traits CharT int_type) (input : List int_type) :
    (stored T input).length ≤ input.length := by
  simp only [stored, List.length_map]
  exact List.length_filter_le _ _

/-- Appends that together leave room in the array only store: the file object
is untouched, the offset advances by the number of stored characters, and the
stored characters follow what was buffered before. -/
theorem run_appends_room (T : Traits CharT int_type) :
    ∀ (input : List int_type) (s : basic_streambuf CharT),
      s.m_write_ix + (stored T input).length < s.m_write_buffer.length →
      ∃ buf : List CharT,
        buf.length = s.m_write_buffer.length ∧
        buf.take (s.m_write_ix + (stored T input).length)
          = s.m_write_buffer.take s.m_write_ix ++ stored T input ∧
        run T s (input.map Op.append) = Outcome.returned ()
          { s with m_write_buffer := buf,
                   m_write_ix := s.m_write_ix + (stored T input).length }
  | [], s, _ => ⟨s.m_write_buffer, rfl, by simp [stored_nil], by simp [run, stored_nil]⟩
  | ch :: input, s, h => by
    by_cases hch : ch = T.eof
    · subst hch
      rw [stored_cons_eof] at h ⊢
      obtain ⟨buf, h1, h2, h3⟩ := run_appends_room T input s h
      refine ⟨buf, h1, h2, ?_⟩
      simp only [List.map_cons, run, overflow_eof]
      exact h3
    · rw [stored_cons T ch input hch] at h ⊢
      simp only [List.length_cons] at h ⊢
      have hroom : s.m_write_ix + 1 < s.m_write_buffer.length := by omega
      obtain ⟨buf, h1, h2, h3⟩ := run_appends_room T input
        { s with m_write_buffer := s.m_write_buffer.set s.m_write_ix (T.to_char_type ch),
                 m_write_ix := s.m_write_ix + 1 }
        (by simp only [List.length_set]; omega)
      refine ⟨buf, by simpa using h1, ?_, ?_⟩
      · have e : s.m_write_ix + ((stored T input).length + 1)
            = s.m_write_ix + 1 + (stored T input).length := by omega
        rw [e, h2]
        simp only
        rw [take_succ_set _ _ _ (by omega)]
        simp
      · simp only [List.map_cons, run, overflow_room T s ch hch hroom]
        rw [h3]
        have e : s.m_write_ix + ((stored T input).length + 1)
            = s.m_write_ix + 1 + (stored T input).length := by omega
        simp [e]

end room

/-! ## Appending to an adapter over an accepting sink -/

section accepting

variable {CharT int_type : Type} [DecidableEq int_type]

theorem chunks_snoc_old {α : Type} (cap : Nat) (chars : List α) (x : α) (q : Nat)
    (h : q * cap ≤ chars.length) : chunks cap (chars ++ [x]) q = chunks cap chars q := by
  unfold chunks
  apply List.map_congr_left
  intro k hk
  have hk1 : k + 1 ≤ q := by simpa [List.mem_range] using hk
  have h1 : (k + 1) * cap ≤ q * cap := Nat.mul_le_mul_right cap hk1
  have h2 : k * cap + cap ≤ chars.length := by
    have e : (k + 1) * cap = k * cap + cap := by ring
    omega
  rw [List.drop_append_of_le_length (by omega)]
  rw [List.take_append_of_le_length (by simp only [List.length_drop]; omega)]

theorem chunks_succ {α : Type} (cap : Nat) (chars : List α) (q : Nat) :
    chunks cap chars (q + 1) = chunks cap chars q ++ [(chars.drop (q * cap)).take cap] := by
  simp [chunks, List.range_succ]

/-- One append of a character other than `eof` keeps the relation `chunked`
and returns normally. -/
theorem overflow_chunked (T : Traits CharT int_type) (base : List (List CharT)) (cap : Nat)
    (chars : List CharT) (s : basic_streambuf CharT) (ch : int_type) (hch : ch ≠ T.eof)
    (h : chunked base cap chars s) :
    ∃ s1, overflow T s ch = Outcome.returned ch s1 ∧
      chunked base cap (chars ++ [T.to_char_type ch]) s1 := by
  obtain ⟨q, r, hlen, hr, hcap, hix, hfile, hbuf⟩ := h
  have hq : q * cap ≤ chars.length := by omega
  by_cases hfull : r + 1 = cap
  · -- the append fills the array: `sync` hands it over and resets the offset
    have hview : (s.m_write_buffer.set s.m_write_ix (T.to_char_type ch)).take (s.m_write_ix + 1)
        = chars.drop (q * cap) ++ [T.to_char_type ch] := by
      rw [take_succ_set _ _ _ (by omega), hix, hbuf]
    rw [overflow_fill T s ch hch (by omega)]
    rw [sync_succeeded _ (by simp) (by simp [hfile, accept_all])]
    refine ⟨_, by simp; rfl, q + 1, 0, ?_, by omega, by simpa using hcap, rfl, ?_, ?_⟩
    · simp only [List.length_append, List.length_singleton]
      have e : (q + 1) * cap = q * cap + cap := by ring
      omega
    · have hl : (chars.drop (q * cap) ++ [T.to_char_type ch]).length ≤ cap := by
        simp only [List.length_append, List.length_drop, List.length_singleton]
        omega
      simp only [hview, hfile, accept_all]
      rw [chunks_succ, chunks_snoc_old cap chars _ q hq, List.drop_append_of_le_length hq]
      rw [List.take_of_length_le hl, List.append_assoc]
    · have e : (q + 1) * cap = (chars ++ [T.to_char_type ch]).length := by
        simp only [List.length_append, List.length_singleton]
        have e1 : (q + 1) * cap = q * cap + cap := by ring
        omega
      rw [e, List.drop_length, List.take_zero]
  · -- the append leaves room
    rw [overflow_room T s ch hch (by omega)]
    refine ⟨_, rfl, q, r + 1, ?_, by omega, by simpa using hcap, by simp [hix], ?_, ?_⟩
    · simp only [List.length_append, List.length_singleton]
      omega
    · simp only [hfile]
      rw [chunks_snoc_old cap chars _ q hq]
    · simp only
      rw [hix, take_succ_set _ _ _ (by omega), hbuf, List.drop_append_of_le_length hq]

/-- A sequence of appends of characters other than `eof` keeps the relation
`chunked` and returns normally. -/
theorem run_appends_chunked (T : Traits CharT int_type) (base : List (List CharT)) (cap : Nat) :
    ∀ (input : List int_type) (chars : List CharT) (s : basic_streambuf CharT),
      (∀ ch ∈ input, ch ≠ T.eof) → chunked base cap chars s →
      ∃ s1, run T s (input.map Op.append) = Outcome.returned () s1 ∧
        chunked base cap (chars ++ input.map T.to_char_type) s1
  | [], chars, s, _, h => ⟨s, by simp [run], by simpa using h⟩
  | ch :: input, chars, s, hne, h => by
    have h1 : ch ≠ T.eof := hne ch (List.mem_cons_self _ _)
    have h2 : ∀ c ∈ input, c ≠ T.eof := fun c hc => hne c (List.mem_cons_of_mem _ hc)
    obtain ⟨s1, e1, c1⟩ := overflow_chunked T base cap chars s ch h1 h
    obtain ⟨s2, e2, c2⟩ := run_appends_chunked T base cap input _ s1 h2 c1
    refine ⟨s2, ?_, by simpa using c2⟩
    simp only [List.map_cons, run, e1]
    exact e2

theorem chunked_construct (written : List (List CharT)) (memory : List CharT)
    (h : 0 < memory.length) :
    chunked written memory.length [] (basic_streambuf.construct (accept_all written) memory) :=
  ⟨0, 0, by simp, h, rfl, rfl, by simp [chunks, basic_streambuf.construct], by simp⟩

end accepting

/-! ## Appends and explicit flushes over an accepting sink -/

section interleaved

variable {CharT int_type : Type} [DecidableEq int_type]

theorem overflow_delivered (T : Traits CharT int_type) (base : List (List CharT)) (cap : Nat)
    (chars : List CharT) (s : basic_streambuf CharT) (ch : int_type)
    (h : delivered base cap chars s) :
    ∃ s1, overflow T s ch = Outcome.returned ch s1 ∧
      delivered base cap (chars ++ stored T [ch]) s1 := by
  obtain ⟨hcap, hix, sub, hfile, hsub⟩ := h
  by_cases hch : ch = T.eof
  · subst hch
    refine ⟨s, overflow_eof T s, hcap, hix, sub, hfile, ?_⟩
    simp [stored_cons_eof, stored_nil, hsub]
  · have hst : stored T [ch] = [T.to_char_type ch] := by
      rw [stored_cons T ch [] hch, stored_nil]
    rw [hst]
    by_cases hfull : s.m_write_ix + 1 = cap
    · rw [overflow_fill T s ch hch (by omega)]
      rw [sync_succeeded _ (by simp) (by simp [hfile, accept_all])]
      refine ⟨_, by simp; rfl, by simpa using hcap, by simp only; omega,
        sub ++ [s.m_write_buffer.take s.m_write_ix ++ [T.to_char_type ch]], ?_, ?_⟩
      · simp only [hfile, accept_all]
        rw [take_succ_set _ _ _ (by omega), List.append_assoc]
      · simp only [List.take_zero, List.append_nil, List.flatten_append, List.flatten_cons,
          List.flatten_nil]
        rw [← hsub, List.append_assoc]
    · rw [overflow_room T s ch hch (by omega)]
      refine ⟨_, rfl, by simpa using hcap, by simp only; omega, sub, hfile, ?_⟩
      simp only
      rw [take_succ_set _ _ _ (by omega), ← hsub, List.append_assoc]

theorem sync_delivered (base : List (List CharT)) (cap : Nat)
    (chars : List CharT) (s : basic_streambuf CharT) (h : delivered base cap chars s) :
    (sync s).1 = 0 ∧ (sync s).2.m_write_ix = 0 ∧ delivered base cap chars (sync s).2 := by
  obtain ⟨hcap, hix, sub, hfile, hsub⟩ := h
  by_cases h0 : s.m_write_ix = 0
  · rw [sync_empty s h0]
    exact ⟨rfl, h0, hcap, hix, sub, hfile, hsub⟩
  · rw [sync_succeeded s h0 (by simp [hfile, accept_all])]
    refine ⟨rfl, rfl, hcap, by simp only; omega, sub ++ [s.m_write_buffer.take s.m_write_ix], ?_, ?_⟩
    · simp only [hfile, accept_all, List.append_assoc]
    · simp only [List.take_zero, List.append_nil, List.flatten_append, List.flatten_cons,
        List.flatten_nil]
      exact hsub

theorem stored_append (T : Traits CharT int_type) (l1 l2 : List int_type) :
    stored T (l1 ++ l2) = stored T l1 ++ stored T l2 := by
  simp [stored]

theorem run_delivered (T : Traits CharT int_type) (base : List (List CharT)) (cap : Nat) :
    ∀ (ops : List (Op int_type)) (chars : List CharT) (s : basic_streambuf CharT),
      delivered base cap chars s →
      ∃ s1, run T s ops = Outcome.returned () s1 ∧
        delivered base cap (chars ++ stored T (appends ops)) s1
  | [], chars, s, h => ⟨s, by simp [run], by simpa [appends, stored_nil] using h⟩
  | Op.append ch :: ops, chars, s, h => by
    obtain ⟨s1, e1, d1⟩ := overflow_delivered T base cap chars s ch h
    obtain ⟨s2, e2, d2⟩ := run_delivered T base cap ops _ s1 d1
    refine ⟨s2, by simp only [run, e1]; exact e2, ?_⟩
    have e : stored T (appends (Op.append ch :: ops))
        = stored T [ch] ++ stored T (appends ops) := by
      rw [← stored_append]; rfl
    rw [e, ← List.append_assoc]
    exact d2
  | Op.flush :: ops, chars, s, h => by
    obtain ⟨s2, e2, d2⟩ := run_delivered T base cap ops chars _ (sync_delivered base cap chars s h).2.2
    exact ⟨s2, by simp only [run]; exact e2, by simpa [appends] using d2⟩

theorem delivered_construct (written : List (List CharT)) (memory : List CharT)
    (h : 0 < memory.length) :
    delivered written memory.length [] (basic_streambuf.construct (accept_all written) memory) :=
  ⟨rfl, h, [], by simp [basic_streambuf.construct], by simp [basic_streambuf.construct]⟩

end interleaved

theorem appends_append {int_type : Type} (ops1 ops2 : List (Op int_type)) :
    appends (ops1 ++ ops2) = appends ops1 ++ appends ops2 := by
  induction ops1 with
  | nil => rfl
  | cons op ops ih => cases op <;> simp [appends, ih]


/-! ## What `sync` changes -/

/-- The three ways `sync` can go. -/
theorem sync_cases {CharT : Type} (s : basic_streambuf CharT) :
    (s.m_write_ix = 0 ∧ sync s = (0, s)) ∨
    (s.m_write_ix ≠ 0 ∧
      s.m_file_ob.write_ok s.m_file_ob.written (s.m_write_buffer.take s.m_write_ix) = false ∧
      sync s = (-1, { s with m_file_ob :=
        { s.m_file_ob with
          written := s.m_file_ob.written ++ [s.m_write_buffer.take s.m_write_ix] } })) ∨
    (s.m_write_ix ≠ 0 ∧
      s.m_file_ob.write_ok s.m_file_ob.written (s.m_write_buffer.take s.m_write_ix) = true ∧
      sync s = (0, { s with
        m_file_ob := { s.m_file_ob with
          written := s.m_file_ob.written ++ [s.m_write_buffer.take s.m_write_ix] },
        m_write_ix := 0 })) := by
  by_cases h0 : s.m_write_ix = 0
  · exact Or.inl ⟨h0, sync_empty s h0⟩
  · cases hw : s.m_file_ob.write_ok s.m_file_ob.written (s.m_write_buffer.take s.m_write_ix)
    · exact Or.inr (Or.inl ⟨h0, rfl, sync_failed s h0 hw⟩)
    · exact Or.inr (Or.inr ⟨h0, rfl, sync_succeeded s h0 hw⟩)

theorem sync_buffer {CharT : Type} (s : basic_streambuf CharT) :
    (sync s).2.m_write_buffer = s.m_write_buffer := by
  rcases sync_cases s with ⟨_, e⟩ | ⟨_, _, e⟩ | ⟨_, _, e⟩ <;> rw [e]

/-- With something buffered `sync` makes exactly one call, on the buffered
characters, whatever its result. -/
theorem sync_written {CharT : Type} (s : basic_streambuf CharT) (h : s.m_write_ix ≠ 0) :
    (sync s).2.m_file_ob.written
      = s.m_file_ob.written ++ [s.m_write_buffer.take s.m_write_ix] := by
  rcases sync_cases s with ⟨h0, _⟩ | ⟨_, _, e⟩ | ⟨_, _, e⟩
  · exact absurd h0 h
  · rw [e]
  · rw [e]

theorem sync_write_ok {CharT : Type} (s : basic_streambuf CharT) :
    (sync s).2.m_file_ob.write_ok = s.m_file_ob.write_ok := by
  rcases sync_cases s with ⟨_, e⟩ | ⟨_, _, e⟩ | ⟨_, _, e⟩ <;> rw [e]

/-! ## Filling the array exactly -/

/-- Appending `init` and then `last`, which together fill the array of a
freshly constructed adapter: the appends of `init` return without any call,
and the append of `last` hands the whole array to `sync`; it throws when the
call fails and returns with offset 0 when the call succeeds. -/
theorem run_fill {CharT int_type : Type} [DecidableEq int_type] (T : Traits CharT int_type)
    (file : PyObject CharT) (memory : List CharT) (init : List int_type) (last : int_type)
    (hlen : init.length + 1 = memory.length) (hne : ∀ ch ∈ init ++ [last], ch ≠ T.eof) :
    ∃ s1, run T (basic_streambuf.construct file memory) (init.map Op.append)
        = Outcome.returned () s1 ∧
      s1.m_file_ob = file ∧
      (file.write_ok file.written ((init ++ [last]).map T.to_char_type) = false →
        overflow T s1 last = Outcome.thrown
          { m_file_ob := { file with
              written := file.written ++ [(init ++ [last]).map T.to_char_type] },
            m_write_buffer := (init ++ [last]).map T.to_char_type,
            m_write_ix := memory.length }) ∧
      (file.write_ok file.written ((init ++ [last]).map T.to_char_type) = true →
        overflow T s1 last = Outcome.returned last
          { m_file_ob := { file with
              written := file.written ++ [(init ++ [last]).map T.to_char_type] },
            m_write_buffer := (init ++ [last]).map T.to_char_type,
            m_write_ix := 0 }) := by
  have hlast : last ≠ T.eof := hne last (by simp)
  have hinit : ∀ ch ∈ init, ch ≠ T.eof := fun ch hc => hne ch (by simp [hc])
  have hst := stored_of_no_eof T init hinit
  have hstl : (stored T init).length = init.length := by rw [hst, List.length_map]
  obtain ⟨buf, hbl, htake, hrun⟩ := run_appends_room T init
    (basic_streambuf.construct file memory)
    (by simp only [basic_streambuf.construct]; omega)
  simp only [basic_streambuf.construct, List.take_zero, List.nil_append, Nat.zero_add,
    hstl] at htake hrun hbl
  rw [hst] at htake
  have hset : buf.set init.length (T.to_char_type last) = (init ++ [last]).map T.to_char_type := by
    have h1 := take_succ_set (T.to_char_type last) buf init.length (by omega)
    rw [List.take_of_length_le (by simp only [List.length_set]; omega), htake] at h1
    rw [h1]; simp
  have hview : List.take (init.length + 1) ((init ++ [last]).map T.to_char_type)
      = (init ++ [last]).map T.to_char_type :=
    List.take_of_length_le (by simp)
  refine ⟨_, hrun, rfl, ?_, ?_⟩
  · intro hw
    rw [overflow_fill T _ last hlast (by simp only; omega)]
    simp only [hset]
    rw [sync_failed _ (by simp) (by simp only [hview]; exact hw)]
    simp [hview, hlen]
  · intro hw
    rw [overflow_fill T _ last hlast (by simp only; omega)]
    simp only [hset]
    rw [sync_succeeded _ (by simp) (by simp only [hview]; exact hw)]
    simp [hview]

/-! ## When `overflow` throws -/

/-- For a character other than `eof` and an offset inside the array,
`overflow` throws exactly when the store fills the array and the `sync` it
then calls returns non-zero; otherwise it returns the character. -/
theorem overflow_throws_iff {CharT int_type : Type} [DecidableEq int_type]
    (T : Traits CharT int_type) (s : basic_streambuf CharT) (ch : int_type)
    (hch : ch ≠ T.eof) (hix : s.m_write_ix < s.m_write_buffer.length) :
    ((∃ s1, overflow T s ch = Outcome.thrown s1) ↔
      (s.m_write_ix + 1 = s.m_write_buffer.length ∧
        (sync { s with
          m_write_buffer := s.m_write_buffer.set s.m_write_ix (T.to_char_type ch),
          m_write_ix := s.m_write_ix + 1 }).1 ≠ 0)) ∧
    (¬ (s.m_write_ix + 1 = s.m_write_buffer.length ∧
        (sync { s with
          m_write_buffer := s.m_write_buffer.set s.m_write_ix (T.to_char_type ch),
          m_write_ix := s.m_write_ix + 1 }).1 ≠ 0) →
      ∃ s1, overflow T s ch = Outcome.returned ch s1) := by
  by_cases hfill : s.m_write_ix + 1 = s.m_write_buffer.length
  · rw [overflow_fill T s ch hch hfill]
    by_cases hr : (sync { s with
          m_write_buffer := s.m_write_buffer.set s.m_write_ix (T.to_char_type ch),
          m_write_ix := s.m_write_ix + 1 }).1 ≠ 0
    · rw [if_pos hr]
      exact ⟨⟨fun _ => ⟨hfill, hr⟩, fun _ => ⟨_, rfl⟩⟩, fun h => absurd ⟨hfill, hr⟩ h⟩
    · rw [if_neg hr]
      refine ⟨⟨?_, fun h => absurd h.2 hr⟩, fun _ => ⟨_, rfl⟩⟩
      rintro ⟨s1, h⟩
      cases h
  · rw [overflow_room T s ch hch (by omega)]
    refine ⟨⟨?_, fun h => absurd h.1 hfill⟩, fun _ => ⟨_, rfl⟩⟩
    rintro ⟨s1, h⟩
    cases h

/-! ## The offset stays within the array while the behaviour is defined -/

theorem sync_offset_le {CharT : Type} (s : basic_streambuf CharT) :
    (sync s).2.m_write_ix ≤ s.m_write_ix := by
  rcases sync_cases s with ⟨_, e⟩ | ⟨_, _, e⟩ | ⟨_, _, e⟩
  · rw [e]
  · rw [e]
  · rw [e]; exact Nat.zero_le _

/-- Whenever `overflow` returns or throws, from an offset that is at most the
array size, the offset afterwards is again at most the array size, and the
array size is unchanged.  Nothing is said of a store outside the array. -/
theorem overflow_offset_le {CharT int_type : Type} [DecidableEq int_type]
    (T : Traits CharT int_type) (s s1 : basic_streambuf CharT) (ch : int_type)
    (h : s.m_write_ix ≤ s.m_write_buffer.length)
    (hout : (∃ value, overflow T s ch = Outcome.returned value s1)
      ∨ overflow T s ch = Outcome.thrown s1) :
    s1.m_write_ix ≤ s1.m_write_buffer.length ∧
      s1.m_write_buffer.length = s.m_write_buffer.length := by
  by_cases hch : ch = T.eof
  · subst hch
    rw [overflow_eof] at hout
    rcases hout with ⟨_, e⟩ | e
    · cases e; exact ⟨h, rfl⟩
    · cases e
  · by_cases hfull : s.m_write_buffer.length ≤ s.m_write_ix
    · rw [overflow_full T s ch hch hfull] at hout
      rcases hout with ⟨_, e⟩ | e <;> cases e
    · by_cases hfill : s.m_write_ix + 1 = s.m_write_buffer.length
      · rw [overflow_fill T s ch hch hfill] at hout
        have hle := sync_offset_le { s with
          m_write_buffer := s.m_write_buffer.set s.m_write_ix (T.to_char_type ch),
          m_write_ix := s.m_write_ix + 1 }
        have hb := sync_buffer { s with
          m_write_buffer := s.m_write_buffer.set s.m_write_ix (T.to_char_type ch),
          m_write_ix := s.m_write_ix + 1 }
        have key : ∀ s2 : basic_streambuf CharT,
            s2 = (sync { s with
              m_write_buffer := s.m_write_buffer.set s.m_write_ix (T.to_char_type ch),
              m_write_ix := s.m_write_ix + 1 }).2 →
            s2.m_write_ix ≤ s2.m_write_buffer.length ∧
              s2.m_write_buffer.length = s.m_write_buffer.length := by
          intro s2 e
          rw [e, hb]
          simp only [List.length_set] at hle ⊢
          exact ⟨by omega, trivial⟩
        split at hout
        · rcases hout with ⟨_, e⟩ | e
          · cases e
          · cases e; exact key _ rfl
        · rcases hout with ⟨_, e⟩ | e
          · cases e; exact key _ rfl
          · cases e
      · rw [overflow_room T s ch hch (by omega)] at hout
        rcases hout with ⟨_, e⟩ | e
        · cases e
          simp only [List.length_set]
          exact ⟨by omega, trivial⟩
        · cases e

/-! ## The claims -/

section claims

variable {CharT int_type : Type} [DecidableEq int_type]

/-- C1: when `input` is a sequence of characters other than `eof`, appended
one by one to a freshly constructed adapter over an accepting sink, with no
explicit flush, every append returns normally; the sink receives exactly
`input.length / cap` submissions, the `k`-th being the characters of the input
at positions `k * cap` up to `(k + 1) * cap`; and afterwards the offset is
`input.length % cap` and the buffer holds the last `input.length % cap`
characters of the input.  Here `cap` is the array size (8192 in the header),
any positive size being allowed. -/
theorem C1_full_chunks_then_remainder (T : Traits CharT int_type)
    (written : List (List CharT)) (memory : List CharT) (input : List int_type)
    (hcap : 0 < memory.length) (hne : ∀ ch ∈ input, ch ≠ T.eof) :
    ∃ s, run T (basic_streambuf.construct (accept_all written) memory) (input.map Op.append)
        = Outcome.returned () s ∧
      s.m_file_ob.written = written ++
        (List.range (input.length / memory.length)).map
          (fun k => ((input.map T.to_char_type).drop (k * memory.length)).take memory.length) ∧
      (s.m_file_ob.written.drop written.length).length = input.length / memory.length ∧
      s.m_write_ix = input.length % memory.length ∧
      s.m_write_buffer.take s.m_write_ix
        = (input.map T.to_char_type).drop (input.length - input.length % memory.length) := by
  obtain ⟨s, hrun, q, r, hlen, hr, _, hix, hfile, hbuf⟩ :=
    run_appends_chunked T written memory.length input [] _ hne (chunked_construct written memory hcap)
  simp only [List.nil_append, List.length_map] at hlen hfile hbuf
  have hqr : input.length / memory.length = q ∧ input.length % memory.length = r := by
    rw [Nat.div_mod_unique hcap]
    constructor
    · rw [hlen]; ring
    · exact hr
  have hq : input.length - input.length % memory.length = q * memory.length := by omega
  refine ⟨s, hrun, ?_, ?_, ?_, ?_⟩
  · rw [hfile, hqr.1]; rfl
  · rw [hfile, hqr.1]; simp [accept_all, chunks]
  · rw [hix, hqr.2]
  · rw [hix, hq, hbuf]

/-- C1 at an array of 4 elements and the input "abcdef": one submission,
"abcd", and "ef" left in the buffer. -/
theorem C1_full_chunks_then_remainder_witness :
    ∃ s, run char_traits (basic_streambuf.construct (accept_all []) [0, 0, 0, 0])
        (([97, 98, 99, 100, 101, 102] : List Int).map Op.append) = Outcome.returned () s ∧
      s.m_file_ob.written = [[97, 98, 99, 100]] ∧
      s.m_write_ix = 2 ∧
      s.m_write_buffer.take s.m_write_ix = [101, 102] := by
  obtain ⟨s, h1, h2, _, h4, h5⟩ :=
    C1_full_chunks_then_remainder char_traits [] [0, 0, 0, 0] [97, 98, 99, 100, 101, 102]
      (by decide) (by decide)
  exact ⟨s, h1, h2.trans (by decide), h4.trans (by decide), h5.trans (by decide)⟩

/-- C2: for every interleaving `ops` of appends and explicit flushes applied
to a freshly constructed adapter over an accepting sink, followed by one
final flush, every request returns normally, the concatenation of the chunks
submitted to the sink, in submission order, is exactly the sequence of the
appended characters other than `eof`, in append order, and the buffer is then
empty (offset 0). -/
theorem C2_all_appended_delivered_in_order (T : Traits CharT int_type)
    (written : List (List CharT)) (memory : List CharT) (ops : List (Op int_type))
    (hcap : 0 < memory.length) :
    ∃ s sub, run T (basic_streambuf.construct (accept_all written) memory) (ops ++ [Op.flush])
        = Outcome.returned () s ∧
      s.m_file_ob.written = written ++ sub ∧
      sub.flatten = stored T (appends ops) ∧
      s.m_write_ix = 0 := by
  obtain ⟨s1, hrun, hd⟩ :=
    run_delivered T written memory.length ops [] _ (delivered_construct written memory hcap)
  obtain ⟨_, hix, _, _, sub, hfile, hsub⟩ := sync_delivered written memory.length _ s1 hd
  refine ⟨(sync s1).2, sub, ?_, by rw [hfile]; rfl, ?_, hix⟩
  · rw [run_append, hrun]
    simp [run]
  · rw [hix] at hsub
    simpa using hsub

/-- C2 at an array of 4 elements: "ab", flush, "cdefg" and the final flush
deliver "ab", "cdef", "g". -/
theorem C2_all_appended_delivered_in_order_witness :
    ∃ s sub, run char_traits (basic_streambuf.construct (accept_all []) [0, 0, 0, 0])
        ([Op.append 97, Op.append 98, Op.flush, Op.append 99, Op.append 100, Op.append 101,
          Op.append 102, Op.append 103] ++ [Op.flush]) = Outcome.returned () s ∧
      s.m_file_ob.written = [] ++ sub ∧
      sub.flatten = [97, 98, 99, 100, 101, 102, 103] ∧
      s.m_write_ix = 0 := by
  obtain ⟨s, sub, h1, h2, h3, h4⟩ :=
    C2_all_appended_delivered_in_order char_traits [] [0, 0, 0, 0]
      [Op.append 97, Op.append 98, Op.flush, Op.append 99, Op.append 100, Op.append 101,
        Op.append 102, Op.append 103] (by decide)
  exact ⟨s, sub, h1, h2, h3.trans (by decide), h4⟩

/-- C9: for every sequence of fewer than `cap` characters appended to a
freshly constructed adapter with no explicit flush, every append returns
normally and the sink receives no submission, whatever the sink would answer:
the file object is exactly as it was. -/
theorem C9_no_premature_flush (T : Traits CharT int_type) (file : PyObject CharT)
    (memory : List CharT) (input : List int_type) (h : input.length < memory.length) :
    ∃ s, run T (basic_streambuf.construct file memory) (input.map Op.append)
        = Outcome.returned () s ∧
      s.m_file_ob = file ∧ s.m_file_ob.written = file.written := by
  have hle := stored_length_le T input
  obtain ⟨buf, _, _, hrun⟩ := run_appends_room T input (basic_streambuf.construct file memory)
    (by simp only [basic_streambuf.construct]; omega)
  exact ⟨_, hrun, rfl, rfl⟩

/-- C9 at an array of 4 elements, the input "abc" and a sink that would fail
every submission. -/
theorem C9_no_premature_flush_witness :
    ∃ s, run char_traits (basic_streambuf.construct (fail_all []) [0, 0, 0, 0])
        (([97, 98, 99] : List Int).map Op.append) = Outcome.returned () s ∧
      s.m_file_ob = fail_all [] ∧ s.m_file_ob.written = [] :=
  C9_no_premature_flush char_traits (fail_all []) [0, 0, 0, 0] [97, 98, 99] (by decide)

/-- C3, as amended: for every sequence `input` of characters other than
`eof` with `0 < input.length < cap`, appended to a freshly constructed
adapter, the appends return normally and an explicit flush then makes exactly
one submission, whose content is exactly those characters; when that
submission succeeds the offset is reset to 0 and the flush returns 0. -/
theorem C3_flush_submits_the_buffered (T : Traits CharT int_type) (file : PyObject CharT)
    (memory : List CharT) (input : List int_type) (hne : ∀ ch ∈ input, ch ≠ T.eof)
    (hpos : 0 < input.length) (hlt : input.length < memory.length) :
    ∃ s, run T (basic_streambuf.construct file memory) (input.map Op.append)
        = Outcome.returned () s ∧
      s.m_file_ob = file ∧
      (sync s).2.m_file_ob.written = file.written ++ [input.map T.to_char_type] ∧
      (file.write_ok file.written (input.map T.to_char_type) = true →
        (sync s).1 = 0 ∧ (sync s).2.m_write_ix = 0) := by
  have hst := stored_of_no_eof T input hne
  have hstl : (stored T input).length = input.length := by rw [hst, List.length_map]
  obtain ⟨buf, _, htake, hrun⟩ := run_appends_room T input (basic_streambuf.construct file memory)
    (by simp only [basic_streambuf.construct]; omega)
  simp only [basic_streambuf.construct, List.take_zero, List.nil_append, Nat.zero_add,
    hstl] at htake hrun
  rw [hst] at htake
  refine ⟨_, hrun, rfl, ?_, ?_⟩
  · rw [sync_written _ (by simp only; omega)]
    simp only [htake]
  · intro hok
    rw [sync_succeeded _ (by simp only; omega) (by simp only [htake]; exact hok)]
    exact ⟨rfl, rfl⟩

/-- C3 as amended, at an array of 4 elements and the input "abc". -/
theorem C3_flush_submits_the_buffered_witness :
    ∃ s, run char_traits (basic_streambuf.construct (accept_all []) [0, 0, 0, 0])
        (([97, 98, 99] : List Int).map Op.append) = Outcome.returned () s ∧
      s.m_file_ob = accept_all [] ∧
      (sync s).2.m_file_ob.written = [[97, 98, 99]] ∧
      ((accept_all [] : PyObject Nat).write_ok [] [97, 98, 99] = true →
        (sync s).1 = 0 ∧ (sync s).2.m_write_ix = 0) := by
  obtain ⟨s, h1, h2, h3, h4⟩ :=
    C3_flush_submits_the_buffered char_traits (accept_all []) [0, 0, 0, 0] [97, 98, 99]
      (by decide) (by decide) (by decide)
  exact ⟨s, h1, h2, h3.trans (by decide), h4⟩

/-- C3 as stated fails when no character was appended (N = 0): on the
header's array of 8192 elements, the flush of a freshly constructed adapter
makes no submission at all, not one. -/
theorem C3_counterexample_nothing_buffered :
    ([] : List Int).length < (List.replicate write_buffer_size (0 : Nat)).length ∧
    run char_traits
        (basic_streambuf.construct (accept_all []) (List.replicate write_buffer_size 0))
        (([] : List Int).map Op.append)
      = Outcome.returned ()
        (basic_streambuf.construct (accept_all []) (List.replicate write_buffer_size 0)) ∧
    (sync (basic_streambuf.construct (accept_all [])
        (List.replicate write_buffer_size (0 : Nat)))).2.m_file_ob.written = [] ∧
    ¬ ∃ chunk, (sync (basic_streambuf.construct (accept_all [])
        (List.replicate write_buffer_size (0 : Nat)))).2.m_file_ob.written = [] ++ [chunk] := by
  have e : sync (basic_streambuf.construct (accept_all [])
      (List.replicate write_buffer_size (0 : Nat)))
      = (0, basic_streambuf.construct (accept_all []) (List.replicate write_buffer_size 0)) :=
    sync_empty _ rfl
  refine ⟨by simp only [List.length_replicate, List.length_nil]; decide, by simp [run], ?_, ?_⟩
  · rw [e]; rfl
  · rw [e]
    rintro ⟨chunk, h⟩
    simp [basic_streambuf.construct, accept_all] at h

/-- C4: if the submission made by an explicit flush fails, the flush returns
-1, the offset and the buffer are exactly as before the flush, and a second
flush with no append in between submits the identical characters again. -/
theorem C4_failed_flush_is_retried_unchanged (s : basic_streambuf CharT)
    (hix : s.m_write_ix ≠ 0)
    (hfail : s.m_file_ob.write_ok s.m_file_ob.written
      (s.m_write_buffer.take s.m_write_ix) = false) :
    (sync s).1 = -1 ∧
    (sync s).2.m_write_ix = s.m_write_ix ∧
    (sync s).2.m_write_buffer = s.m_write_buffer ∧
    (sync s).2.m_file_ob.written
      = s.m_file_ob.written ++ [s.m_write_buffer.take s.m_write_ix] ∧
    (sync (sync s).2).2.m_file_ob.written
      = (sync s).2.m_file_ob.written ++ [s.m_write_buffer.take s.m_write_ix] := by
  have e := sync_failed s hix hfail
  refine ⟨by rw [e], by rw [e], by rw [e], by rw [e], ?_⟩
  rw [sync_written (sync s).2 (by rw [e]; exact hix)]
  rw [e]

/-- C4 at a buffer holding "ab" over a sink that fails every submission. -/
theorem C4_failed_flush_is_retried_unchanged_witness :
    (sync (⟨fail_all [], [97, 98, 0, 0], 2⟩ : basic_streambuf Nat)).1 = -1 ∧
    (sync (⟨fail_all [], [97, 98, 0, 0], 2⟩ : basic_streambuf Nat)).2.m_write_ix = 2 ∧
    (sync (⟨fail_all [], [97, 98, 0, 0], 2⟩ : basic_streambuf Nat)).2.m_write_buffer
      = [97, 98, 0, 0] ∧
    (sync (⟨fail_all [], [97, 98, 0, 0], 2⟩ : basic_streambuf Nat)).2.m_file_ob.written
      = [] ++ [List.take 2 [97, 98, 0, 0]] ∧
    (sync (sync (⟨fail_all [], [97, 98, 0, 0], 2⟩ : basic_streambuf Nat)).2).2.m_file_ob.written
      = (sync (⟨fail_all [], [97, 98, 0, 0], 2⟩ : basic_streambuf Nat)).2.m_file_ob.written
        ++ [List.take 2 [97, 98, 0, 0]] :=
  C4_failed_flush_is_retried_unchanged ⟨fail_all [], [97, 98, 0, 0], 2⟩ (by decide) rfl

/-- C5: over a sink that fails every submission, appending exactly `cap`
characters other than `eof` to a freshly constructed adapter makes the last
append throw, all earlier ones returning normally; the buffer then holds
exactly those `cap` characters with offset `cap`; and an explicit flush
against a sink that now accepts submits exactly those characters in one chunk,
returns 0 and resets the offset to 0. -/
theorem C5_failed_fill_keeps_the_bytes (T : Traits CharT int_type)
    (written : List (List CharT)) (memory : List CharT) (init : List int_type)
    (last : int_type) (hlen : init.length + 1 = memory.length)
    (hne : ∀ ch ∈ init ++ [last], ch ≠ T.eof) :
    ∃ s1 s2, run T (basic_streambuf.construct (fail_all written) memory) (init.map Op.append)
        = Outcome.returned () s1 ∧
      overflow T s1 last = Outcome.thrown s2 ∧
      s2.m_write_ix = memory.length ∧
      s2.m_write_buffer = (init ++ [last]).map T.to_char_type ∧
      ∀ w : List (List CharT),
        (sync { s2 with m_file_ob := accept_all w }).1 = 0 ∧
        (sync { s2 with m_file_ob := accept_all w }).2.m_file_ob.written
          = w ++ [(init ++ [last]).map T.to_char_type] ∧
        (sync { s2 with m_file_ob := accept_all w }).2.m_write_ix = 0 := by
  obtain ⟨s1, hrun, _, hthrow, _⟩ := run_fill T (fail_all written) memory init last hlen hne
  refine ⟨s1, _, hrun, hthrow rfl, rfl, rfl, ?_⟩
  intro w
  have hview : List.take memory.length ((init ++ [last]).map T.to_char_type)
      = (init ++ [last]).map T.to_char_type :=
    List.take_of_length_le (by simp; omega)
  rw [sync_succeeded _ (by simp only; omega) (by simp [accept_all])]
  refine ⟨rfl, ?_, rfl⟩
  simp only [accept_all]
  rw [hview]

/-- C5 at an array of 4 elements and the input "abcd". -/
theorem C5_failed_fill_keeps_the_bytes_witness :
    ∃ s1 s2, run char_traits (basic_streambuf.construct (fail_all []) [0, 0, 0, 0])
        (([97, 98, 99] : List Int).map Op.append) = Outcome.returned () s1 ∧
      overflow char_traits s1 100 = Outcome.thrown s2 ∧
      s2.m_write_ix = 4 ∧
      s2.m_write_buffer = [97, 98, 99, 100] ∧
      ∀ w : List (List Nat),
        (sync { s2 with m_file_ob := accept_all w }).1 = 0 ∧
        (sync { s2 with m_file_ob := accept_all w }).2.m_file_ob.written
          = w ++ [[97, 98, 99, 100]] ∧
        (sync { s2 with m_file_ob := accept_all w }).2.m_write_ix = 0 :=
  C5_failed_fill_keeps_the_bytes char_traits [] [0, 0, 0, 0] [97, 98, 99] 100
    (by decide) (by decide)

/-- C7: an explicit flush has no abrupt outcome (`sync` is a total function
giving a status and a state); it returns -1 exactly when the offset is
greater than 0 and the submission fails, and returns 0 otherwise.  With
offset 0 it returns 0 and leaves the object, the file object included,
untouched, whatever the sink would answer. -/
theorem C7_flush_status (s : basic_streambuf CharT) :
    ((sync s).1 = -1 ↔
      (0 < s.m_write_ix ∧
        s.m_file_ob.write_ok s.m_file_ob.written (s.m_write_buffer.take s.m_write_ix) = false)) ∧
    (¬ (0 < s.m_write_ix ∧
        s.m_file_ob.write_ok s.m_file_ob.written (s.m_write_buffer.take s.m_write_ix) = false) →
      (sync s).1 = 0) ∧
    ((sync s).1 = -1 → (sync s).2.m_file_ob.written
      = s.m_file_ob.written ++ [s.m_write_buffer.take s.m_write_ix]) ∧
    (s.m_write_ix = 0 → sync s = (0, s)) := by
  rcases sync_cases s with ⟨h0, e⟩ | ⟨h0, hw, e⟩ | ⟨h0, hw, e⟩
  · refine ⟨?_, ?_, ?_, fun _ => e⟩
    · rw [e]; constructor
      · intro h; simp at h
      · intro h; omega
    · intro _; rw [e]
    · rw [e]; intro h; simp at h
  · refine ⟨?_, ?_, ?_, fun h => absurd h h0⟩
    · rw [e]; exact ⟨fun _ => ⟨by omega, hw⟩, fun _ => rfl⟩
    · intro h; exact absurd ⟨by omega, hw⟩ h
    · intro _; rw [e]
  · refine ⟨?_, ?_, ?_, fun h => absurd h h0⟩
    · rw [e]; constructor
      · intro h; simp at h
      · intro h; rw [hw] at h; simp at h
    · intro _; rw [e]
    · rw [e]; intro h; simp at h

end claims

/-- C6 at the failing input: the header's adapter (8192 elements) over a sink
that failed the submission of 8192 characters 'a' is left with offset 8192;
appending one more 'a' then stores at `m_write_buffer[8192]`, outside the
array, so the append neither returns normally nor throws. -/
theorem C6_append_on_full_buffer_is_out_of_bounds :
    overflow char_traits
      ({ m_file_ob := fail_all [List.replicate write_buffer_size 97],
         m_write_buffer := List.replicate write_buffer_size 97,
         m_write_ix := write_buffer_size } : basic_streambuf Nat) 97
      = Outcome.out_of_bounds write_buffer_size ∧
    (∀ value s1, overflow char_traits
      ({ m_file_ob := fail_all [List.replicate write_buffer_size 97],
         m_write_buffer := List.replicate write_buffer_size 97,
         m_write_ix := write_buffer_size } : basic_streambuf Nat) 97
      ≠ Outcome.returned value s1) := by
  have e := overflow_full char_traits
    ({ m_file_ob := fail_all [List.replicate write_buffer_size 97],
       m_write_buffer := List.replicate write_buffer_size 97,
       m_write_ix := write_buffer_size } : basic_streambuf Nat) 97 (by decide)
    (by simp only [List.length_replicate]; exact Nat.le_refl _)
  refine ⟨e, ?_⟩
  intro value s1 h
  rw [e] at h
  cases h

/-- C8 at the failing input: on the header's adapter (8192 elements) over a
sink that fails every submission, 8191 appends of 'a' return normally, the
8192nd throws and leaves the offset at 8192, and the next append stores at
`m_write_buffer[8192]`, outside the array, on its way to offset 8193. -/
theorem C8_append_after_failed_fill_is_out_of_bounds :
    ∃ s1 s2, run char_traits
        (basic_streambuf.construct (fail_all []) (List.replicate write_buffer_size 0))
        ((List.replicate (write_buffer_size - 1) (97 : Int)).map Op.append)
          = Outcome.returned () s1 ∧
      overflow char_traits s1 97 = Outcome.thrown s2 ∧
      s2.m_write_ix = write_buffer_size ∧
      s2.m_write_buffer.length = write_buffer_size ∧
      overflow char_traits s2 97 = Outcome.out_of_bounds write_buffer_size := by
  obtain ⟨s1, hrun, _, hthrow, _⟩ := run_fill char_traits (fail_all [])
    (List.replicate write_buffer_size 0) (List.replicate (write_buffer_size - 1) (97 : Int)) 97
    (by simp only [List.length_replicate]; decide)
    (by
      intro ch hc
      have h97 : ch = 97 := by
        rcases List.mem_append.mp hc with h | h
        · exact (List.mem_replicate.mp h).2
        · simpa using h
      rw [h97]; decide)
  refine ⟨s1, _, hrun, hthrow rfl, by simp only [List.length_replicate], ?_, ?_⟩
  · simp only [List.length_map, List.length_append, List.length_replicate,
      List.length_singleton]
    decide
  · rw [overflow_full char_traits _ 97 (by decide)]
    · simp only [List.length_replicate]
    · simp only [List.length_map, List.length_append, List.length_replicate,
        List.length_singleton]
      decide

/-- C10, as amended: appending `Traits::eof()` is ignored in every state: the
call returns normally, without throwing, and the object, with its offset, its
buffer and its file object, is exactly as before, so nothing is submitted;
the value it returns is `Traits::eof()` itself, which is the failure return of
the stream contract. -/
theorem C10_eof_is_ignored_and_returned {CharT int_type : Type} [DecidableEq int_type]
    (T : Traits CharT int_type) (s : basic_streambuf CharT) :
    overflow T s T.eof = Outcome.returned T.eof s ∧
    reports_failure T (overflow T s T.eof) = true := by
  have e : overflow T s T.eof = Outcome.returned T.eof s := by simp [overflow]
  refine ⟨e, ?_⟩
  rw [e]
  simp [reports_failure]

/-- C10 as stated fails: on a freshly constructed adapter of the header's
size, `overflow(Traits::eof())` with the traits of `char` returns -1, the
value that reports failure to the caller under the stream contract. -/
theorem C10_counterexample_eof_is_returned :
    overflow char_traits
        (basic_streambuf.construct (accept_all []) (List.replicate write_buffer_size 0)) (-1)
      = Outcome.returned char_traits.eof
        (basic_streambuf.construct (accept_all []) (List.replicate write_buffer_size 0)) ∧
    reports_failure char_traits (overflow char_traits
        (basic_streambuf.construct (accept_all []) (List.replicate write_buffer_size 0)) (-1))
      = true := by
  have e : overflow char_traits
      (basic_streambuf.construct (accept_all []) (List.replicate write_buffer_size 0)) (-1)
      = Outcome.returned char_traits.eof
        (basic_streambuf.construct (accept_all []) (List.replicate write_buffer_size 0)) :=
    overflow_eof char_traits _
  refine ⟨e, ?_⟩
  rw [e]
  rfl

/-! ## Destruction and chunk boundaries -/

/-- C11: destroying the stream makes one flush attempt and completes normally
whatever the sink answers: when `N > 0` characters are buffered (`N` being
the offset, at most the array size), the sink receives exactly one more
submission, holding exactly those `N` characters, and the destructor returns
whether that submission succeeds or fails. -/
theorem C11_destruction_flushes_once {CharT : Type} (os : basic_ostream CharT)
    (hpos : 0 < os.m_buf.m_write_ix)
    (hix : os.m_buf.m_write_ix ≤ os.m_buf.m_write_buffer.length) :
    ∃ left, basic_ostream.destroy os = Outcome.returned () left ∧
      left.1.written = os.m_buf.m_file_ob.written
        ++ [os.m_buf.m_write_buffer.take os.m_buf.m_write_ix] ∧
      (os.m_buf.m_write_buffer.take os.m_buf.m_write_ix).length = os.m_buf.m_write_ix := by
  refine ⟨_, rfl, ?_, ?_⟩
  · exact sync_written os.m_buf (by omega)
  · rw [List.length_take]
    omega

/-- C11 at a buffer holding "ab", once over a sink that fails every
submission and once over one that accepts: the destructor returns and the
sink has received "ab" in both cases. -/
theorem C11_destruction_flushes_once_witness :
    (∃ left, basic_ostream.destroy
        ({ m_buf := ⟨fail_all [], [97, 98, 0, 0], 2⟩, ob_refcnt := 1 } : basic_ostream Nat)
          = Outcome.returned () left ∧
      left.1.written = [[97, 98]] ∧
      (List.take 2 [97, 98, 0, 0]).length = 2) ∧
    (∃ left, basic_ostream.destroy
        ({ m_buf := ⟨accept_all [], [97, 98, 0, 0], 2⟩, ob_refcnt := 1 } : basic_ostream Nat)
          = Outcome.returned () left ∧
      left.1.written = [[97, 98]] ∧
      (List.take 2 [97, 98, 0, 0]).length = 2) :=
  ⟨C11_destruction_flushes_once
      ({ m_buf := ⟨fail_all [], [97, 98, 0, 0], 2⟩, ob_refcnt := 1 } : basic_ostream Nat)
      (by decide) (by decide),
    C11_destruction_flushes_once
      ({ m_buf := ⟨accept_all [], [97, 98, 0, 0], 2⟩, ob_refcnt := 1 } : basic_ostream Nat)
      (by decide) (by decide)⟩

/-- C12: over an accepting sink and an array of `C` elements, appending
`C - 1` characters other than `eof` to a freshly constructed adapter makes no
submission; appending the `C`-th makes exactly one, holding all `C`
characters, and leaves offset 0; appending `m` further characters, with
`0 < m < C`, makes no submission, and an explicit flush then makes a second
submission holding exactly those `m` characters, returns 0 and leaves
offset 0. -/
theorem C12_chunk_boundaries {CharT int_type : Type} [DecidableEq int_type]
    (T : Traits CharT int_type) (written : List (List CharT)) (memory : List CharT)
    (first : List int_type) (last : int_type) (more : List int_type)
    (hlen : first.length + 1 = memory.length)
    (hne : ∀ ch ∈ first ++ [last], ch ≠ T.eof)
    (hmore : ∀ ch ∈ more, ch ≠ T.eof)
    (hpos : 0 < more.length) (hlt : more.length < memory.length) :
    ∃ s1 s2 s3,
      run T (basic_streambuf.construct (accept_all written) memory) (first.map Op.append)
        = Outcome.returned () s1 ∧
      s1.m_file_ob.written = written ∧
      overflow T s1 last = Outcome.returned last s2 ∧
      s2.m_file_ob.written = written ++ [(first ++ [last]).map T.to_char_type] ∧
      s2.m_write_ix = 0 ∧
      run T s2 (more.map Op.append) = Outcome.returned () s3 ∧
      s3.m_file_ob.written = written ++ [(first ++ [last]).map T.to_char_type] ∧
      (sync s3).1 = 0 ∧
      (sync s3).2.m_file_ob.written
        = written ++ [(first ++ [last]).map T.to_char_type] ++ [more.map T.to_char_type] ∧
      (sync s3).2.m_write_ix = 0 := by
  obtain ⟨s1, hrun, hfile, _, hret⟩ := run_fill T (accept_all written) memory first last hlen hne
  have hst := stored_of_no_eof T more hmore
  have hstl : (stored T more).length = more.length := by rw [hst, List.length_map]
  obtain ⟨buf, _, htake, hrun2⟩ := run_appends_room T more
    ({ m_file_ob := { accept_all written with
          written := (accept_all written).written ++ [(first ++ [last]).map T.to_char_type] },
       m_write_buffer := (first ++ [last]).map T.to_char_type,
       m_write_ix := 0 } : basic_streambuf CharT)
    (by simp only [List.length_map, List.length_append, List.length_singleton]; omega)
  simp only [List.take_zero, List.nil_append, Nat.zero_add, hstl] at htake hrun2
  rw [hst] at htake
  refine ⟨s1, _, _, hrun, by rw [hfile]; rfl, hret rfl, rfl, rfl, hrun2, rfl, ?_⟩
  rw [sync_succeeded _ (by simp only; omega) (by simp [accept_all])]
  refine ⟨rfl, ?_, rfl⟩
  simp only [htake, accept_all]

/-- C12 at the capacity 4: "abc", then 'd', then "ef" and a flush give the
submissions "abcd" and "ef". -/
theorem C12_chunk_boundaries_witness :
    ∃ s1 s2 s3,
      run char_traits (basic_streambuf.construct (accept_all []) [0, 0, 0, 0])
        (([97, 98, 99] : List Int).map Op.append) = Outcome.returned () s1 ∧
      s1.m_file_ob.written = [] ∧
      overflow char_traits s1 100 = Outcome.returned 100 s2 ∧
      s2.m_file_ob.written = [[97, 98, 99, 100]] ∧
      s2.m_write_ix = 0 ∧
      run char_traits s2 (([101, 102] : List Int).map Op.append) = Outcome.returned () s3 ∧
      s3.m_file_ob.written = [[97, 98, 99, 100]] ∧
      (sync s3).1 = 0 ∧
      (sync s3).2.m_file_ob.written = [[97, 98, 99, 100], [101, 102]] ∧
      (sync s3).2.m_write_ix = 0 :=
  C12_chunk_boundaries char_traits [] [0, 0, 0, 0] [97, 98, 99] 100 [101, 102]
    (by decide) (by decide) (by decide) (by decide) (by decide)

/-! ## The handle, the return value, and the calls to the sink -/

/-- C13: the adapter releases its handle exactly once, in its destructor,
whatever state the buffer is in and whatever the sink answers to the final
flush: from the moment the adapter is constructed to the end of its
destruction the reference count of the Python object goes down by exactly
one, for each of the three constructors.  Construction from a raw
`PyObject*` raises the count by exactly one, so over construction and
destruction together the count is back at its value and the reference of the
caller is not consumed. -/
theorem C13_handle_released_once {CharT : Type} (file : PyObject CharT) (refcnt : Int)
    (memory : List CharT) (os : basic_ostream CharT) :
    (∃ left, basic_ostream.destroy os = Outcome.returned () (left, os.ob_refcnt - 1)) ∧
    (basic_ostream.from_pointer file refcnt memory).ob_refcnt = refcnt + 1 ∧
    (basic_ostream.from_shared file refcnt memory).ob_refcnt = refcnt + 1 ∧
    (basic_ostream.from_moved file refcnt memory).ob_refcnt = refcnt ∧
    (∀ s : basic_streambuf CharT, ∃ left,
      basic_ostream.destroy { basic_ostream.from_pointer file refcnt memory with m_buf := s }
        = Outcome.returned () (left, refcnt)) :=
  ⟨⟨_, rfl⟩, rfl, rfl, rfl, fun s =>
    ⟨(sync s).2.m_file_ob, by
      simp [basic_ostream.destroy, basic_ostream.from_pointer, basic_ostream.from_moved,
        scoped_ref.release, scoped_ref.adopt, Py_INCREF]⟩⟩

/-- C14: for every character `ch` other than `eof`, an append that returns
normally returns `ch` itself, which differs from `Traits::eof()`, so it does
not report a failure; and when the append fills the array and the flush it
triggers fails, the append throws, so that failure is not reported through
the returned value. -/
theorem C14_failure_channels_distinct {CharT int_type : Type} [DecidableEq int_type]
    (T : Traits CharT int_type) (s : basic_streambuf CharT) (ch : int_type)
    (hch : ch ≠ T.eof) :
    (∀ value s1, overflow T s ch = Outcome.returned value s1 →
      value = ch ∧ value ≠ T.eof ∧ reports_failure T (overflow T s ch) = false) ∧
    (s.m_write_ix + 1 = s.m_write_buffer.length →
      (sync { s with
        m_write_buffer := s.m_write_buffer.set s.m_write_ix (T.to_char_type ch),
        m_write_ix := s.m_write_ix + 1 }).1 ≠ 0 →
      ∃ s1, overflow T s ch = Outcome.thrown s1) := by
  constructor
  · intro value s1 hret
    have hv : value = ch := by
      by_cases hfull : s.m_write_buffer.length ≤ s.m_write_ix
      · rw [overflow_full T s ch hch hfull] at hret
        cases hret
      · by_cases hfill : s.m_write_ix + 1 = s.m_write_buffer.length
        · rw [overflow_fill T s ch hch hfill] at hret
          split at hret
          · cases hret
          · cases hret; rfl
        · rw [overflow_room T s ch hch (by omega)] at hret
          cases hret; rfl
    refine ⟨hv, by rw [hv]; exact hch, ?_⟩
    rw [hret, hv]
    simp [reports_failure, hch]
  · intro hfill hfail
    exact ((overflow_throws_iff T s ch hch (by omega)).1).2 ⟨hfill, hfail⟩

/-- C14 over a sink that fails every submission, at an array of 4 elements:
appending 'c' after "ab" returns 'c', which is not `eof` and reports no
failure; appending 'd' after "abc" fills the array and throws. -/
theorem C14_failure_channels_distinct_witness :
    (overflow char_traits (⟨fail_all [], [97, 98, 0, 0], 2⟩ : basic_streambuf Nat) 99
        = Outcome.returned 99 ⟨fail_all [], [97, 98, 99, 0], 3⟩ ∧
      (99 : Int) = 99 ∧ (99 : Int) ≠ char_traits.eof ∧
      reports_failure char_traits (overflow char_traits
        (⟨fail_all [], [97, 98, 0, 0], 2⟩ : basic_streambuf Nat) 99) = false) ∧
    (∃ s1, overflow char_traits
      (⟨fail_all [], [97, 98, 99, 0], 3⟩ : basic_streambuf Nat) 100 = Outcome.thrown s1) :=
  ⟨⟨rfl, (C14_failure_channels_distinct char_traits ⟨fail_all [], [97, 98, 0, 0], 2⟩ 99
      (by decide)).1 99 ⟨fail_all [], [97, 98, 99, 0], 3⟩ rfl⟩,
    (C14_failure_channels_distinct char_traits ⟨fail_all [], [97, 98, 99, 0], 3⟩ 100
      (by decide)).2 rfl (by decide)⟩

/-- C15: over a sink that accepts every submission, every sequence `ops` of
appends and explicit flushes applied to a freshly constructed adapter runs
to its end with every request returning, and in the state then reached the
offset is strictly below the array size; so a further append stores inside
the array, and its outcome is never the store outside the array. -/
theorem C15_store_in_bounds_when_accepting {CharT int_type : Type} [DecidableEq int_type]
    (T : Traits CharT int_type) (written : List (List CharT)) (memory : List CharT)
    (ops : List (Op int_type)) (hcap : 0 < memory.length) :
    ∃ s, run T (basic_streambuf.construct (accept_all written) memory) ops
        = Outcome.returned () s ∧
      s.m_write_buffer.length = memory.length ∧
      s.m_write_ix < s.m_write_buffer.length ∧
      ∀ (ch : int_type) (index : Nat), overflow T s ch ≠ Outcome.out_of_bounds index := by
  obtain ⟨s, hrun, hd⟩ :=
    run_delivered T written memory.length ops [] _ (delivered_construct written memory hcap)
  have hlen : s.m_write_buffer.length = memory.length := hd.1
  have hix : s.m_write_ix < memory.length := hd.2.1
  refine ⟨s, hrun, hlen, by omega, ?_⟩
  intro ch index h
  obtain ⟨s1, h1, _⟩ := overflow_delivered T written memory.length _ s ch hd
  rw [h1] at h
  cases h

/-- C15 at an array of 4 elements: after "ab", a flush and "cdefg" the
offset is below 4 and a further append is not a store outside the array. -/
theorem C15_store_in_bounds_when_accepting_witness :
    ∃ s, run char_traits (basic_streambuf.construct (accept_all []) [0, 0, 0, 0])
        [Op.append 97, Op.append 98, Op.flush, Op.append 99, Op.append 100, Op.append 101,
          Op.append 102, Op.append 103] = Outcome.returned () s ∧
      s.m_write_buffer.length = 4 ∧
      s.m_write_ix < s.m_write_buffer.length ∧
      ∀ (ch : Int) (index : Nat), overflow char_traits s ch ≠ Outcome.out_of_bounds index :=
  C15_store_in_bounds_when_accepting char_traits [] [0, 0, 0, 0]
    [Op.append 97, Op.append 98, Op.flush, Op.append 99, Op.append 100, Op.append 101,
      Op.append 102, Op.append 103] (by decide)

/-- In every state whose offset is at most the array size, and for every
sink, a single flush makes no submission or exactly one, and a single append
either stores outside the array (the buffer being full already) or ends, by
returning or by throwing, after no submission or exactly one; every
submission made holds as many characters as the offset at that moment, which
is greater than 0.  Nothing is said of the append that stores outside the
array. -/
theorem at_most_one_nonempty_submission {CharT int_type : Type} [DecidableEq int_type]
    (T : Traits CharT int_type) (s : basic_streambuf CharT) (ch : int_type)
    (hix : s.m_write_ix ≤ s.m_write_buffer.length) :
    ((sync s).2.m_file_ob.written = s.m_file_ob.written ∨
      ∃ view, (sync s).2.m_file_ob.written = s.m_file_ob.written ++ [view] ∧
        view = s.m_write_buffer.take s.m_write_ix ∧
        view.length = s.m_write_ix ∧ 0 < view.length) ∧
    ((ch ≠ T.eof ∧ s.m_write_ix = s.m_write_buffer.length ∧
        overflow T s ch = Outcome.out_of_bounds s.m_write_ix) ∨
      ∃ s1, (overflow T s ch = Outcome.thrown s1 ∨ overflow T s ch = Outcome.returned ch s1) ∧
        (s1.m_file_ob.written = s.m_file_ob.written ∨
          ∃ view, s1.m_file_ob.written = s.m_file_ob.written ++ [view] ∧
            view.length = s.m_write_ix + 1 ∧ 0 < view.length)) := by
  constructor
  · by_cases h0 : s.m_write_ix = 0
    · left
      rw [sync_empty s h0]
    · right
      refine ⟨_, sync_written s h0, rfl, ?_, ?_⟩
      · rw [List.length_take]; omega
      · rw [List.length_take]; omega
  · by_cases hch : ch = T.eof
    · subst hch
      exact Or.inr ⟨s, Or.inr (overflow_eof T s), Or.inl rfl⟩
    · by_cases hfull : s.m_write_buffer.length ≤ s.m_write_ix
      · exact Or.inl ⟨hch, by omega, overflow_full T s ch hch hfull⟩
      · right
        by_cases hfill : s.m_write_ix + 1 = s.m_write_buffer.length
        · have hw := sync_written { s with
            m_write_buffer := s.m_write_buffer.set s.m_write_ix (T.to_char_type ch),
            m_write_ix := s.m_write_ix + 1 } (by simp)
          have hl : ((s.m_write_buffer.set s.m_write_ix (T.to_char_type ch)).take
              (s.m_write_ix + 1)).length = s.m_write_ix + 1 := by
            rw [List.length_take, List.length_set]; omega
          refine ⟨(sync { s with
            m_write_buffer := s.m_write_buffer.set s.m_write_ix (T.to_char_type ch),
            m_write_ix := s.m_write_ix + 1 }).2, ?_, Or.inr ⟨_, hw, hl, by rw [hl]; omega⟩⟩
          rw [overflow_fill T s ch hch hfill]
          split
          · exact Or.inl rfl
          · exact Or.inr rfl
        · exact ⟨_, Or.inr (overflow_room T s ch hch (by omega)), Or.inl rfl⟩

